import Mathlib

/-!
Verification development for the JADE++ adaptive differential-evolution
optimizer (repository file `src/jade.h`, namespace `jade`, class
`SubPopulation`).

The repository ships only the class header `jade.h`; the method bodies
(`Init`, `CreateInitialPopulation`, `EvaluateCurrentVectors`, `Mutation`,
`Crossover`, `Selection`, `Adaption`, `ArchiveCleanUp`, `RunOptimization`)
are declared there but their translation unit is not part of the sources.
Definitions below that embed one of those bodies therefore carry a doc
comment starting with `Modelled from the spec:` and follow the design
document's description of that operation.  Real numbers (C++ `double`) are
modelled by `ℚ`; C++ `long` by `Int` or `Nat` as appropriate; the random
draw service is modelled as an explicit oracle of draw results, so every
operation is a pure function of its configuration, state and oracle.
-/

namespace jade

/-- State vectors of individuals (C++ `std::vector<double>`). -/
abbrev Vec := List ℚ

/-- Error codes, from `enum Errors` in `jade.h`: no error. -/
def kDone : Nat := 0

/-- Error codes, from `enum Errors` in `jade.h`: unspecified error. -/
def kError : Nat := 1

/-- Component access with default, modelling C++ `v[i]` reads on vectors
whose size is maintained separately. -/
def getQ (l : List ℚ) (i : Nat) : ℚ := (l[i]?).getD 0

/-- Individual access with default, for lists of state vectors. -/
def getV (l : List Vec) (i : Nat) : Vec := (l[i]?).getD []

/-- Index access with default, for lists of indices. -/
def getN (l : List Nat) (i : Nat) : Nat := (l[i]?).getD 0

/-- Clipping a component to its bound pair, as done after mutation:
`if (v > ub) v = ub; if (v < lb) v = lb;`. -/
def clip (lb ub v : ℚ) : ℚ := max lb (min ub v)

/-- Clipping a crossover rate to `[0,1]`. -/
def clamp01 (v : ℚ) : ℚ := max 0 (min 1 v)

/-- Direction-aware acceptance test of `Selection`: the new fitness is at
least as good as the old one (accept on tie) under the configured
direction (`is_find_minimum_`). -/
def better (isMin : Bool) (fNew fOld : ℚ) : Bool :=
  if isMin then decide (fNew ≤ fOld) else decide (fOld ≤ fNew)

/-- Direction-aware comparison as a proposition: `a` is at least as good
as `b`. -/
def dirLE (isMin : Bool) (a b : ℚ) : Prop :=
  if isMin then a ≤ b else b ≤ a

/-- Run configuration of one shard: sub-population size `N`, dimension
`D`, per-dimension bounds (`x_lbound_`, `x_ubound_`), generation budget
(`total_generations_max_`), direction (`is_find_minimum_`), best-share
fraction `p` (`best_share_p_`), adaptation rate `c`
(`adaptation_frequency_c_`), and distribution level. -/
structure Config where
  N : Nat
  D : Nat
  lb : List ℚ
  ub : List ℚ
  genMax : Nat
  isMin : Bool
  p : ℚ
  c : ℚ
  distLevel : Nat

/-- Random draw results consumed by one generation of the operator
pipeline.  `Fdraw i` is the Cauchy sample accepted for individual `i`
after the documented resampling (resampled while non-positive), `CRdraw i`
the raw normal sample for the crossover rate, `unit i d` the uniform
`[0,1]` draw deciding the crossover mask at dimension `d`, and the
remaining streams are raw integer draws for donor selection, the forced
crossover dimension, and archive trimming. -/
structure GenChoices where
  Fdraw : Nat → ℚ
  CRdraw : Nat → ℚ
  unit : Nat → Nat → ℚ
  bestDraw : Nat → Nat
  r1Draw : Nat → Nat
  r2Draw : Nat → Nat
  jDraw : Nat → Nat
  archDraw : Nat → Nat

/-- The full random oracle of a run: uniform draws for the initial
population and per-generation choices. -/
structure Oracle where
  initUnit : Nat → Nat → ℚ
  gen : Nat → GenChoices

/-- Shard-local mutable engine state: current vectors
(`x_vectors_current_`), cached fitness
(`evaluated_fitness_for_current_vectors_`), archive (`archived_best_A_`),
adaptation scalars (`adaptor_mutation_mu_F_`, `adaptor_crossover_mu_CR_`),
generation counter (`current_generation_`) and error status
(`error_status_`). -/
structure PopState where
  x : List Vec
  fit : List ℚ
  archive : List Vec
  muF : ℚ
  muCR : ℚ
  gen : Int
  errorStatus : Nat

/-- Mutation factor of individual `i` (`SetCRiFi`): the accepted positive
Cauchy sample, clipped to `1` from above. -/
def FOf (ch : GenChoices) (i : Nat) : ℚ := min (ch.Fdraw i) 1

/-- Crossover rate of individual `i` (`SetCRiFi`): the normal sample
clipped to `[0,1]`. -/
def CROf (ch : GenChoices) (i : Nat) : ℚ := clamp01 (ch.CRdraw i)

/-- Insert one (fitness, index) pair into a ranked list, better fitness
first under the configured direction. -/
def insertRanked (isMin : Bool) (p : ℚ × Nat) : List (ℚ × Nat) → List (ℚ × Nat)
  | [] => [p]
  | q :: rest =>
    if better isMin p.1 q.1 then p :: q :: rest else q :: insertRanked isMin p rest

/-- Modelled from the spec: `SortEvaluatedCurrent` (body absent from the
sources) — sort the evaluated fitness list by fitness, direction-aware. -/
def sortRanked (isMin : Bool) : List (ℚ × Nat) → List (ℚ × Nat)
  | [] => []
  | p :: rest => insertRanked isMin p (sortRanked isMin rest)

/-- Indices of the current population ranked by fitness, best first. -/
def sortIdx (isMin : Bool) (fit : List ℚ) : List Nat :=
  (sortRanked isMin (fit.zip (List.range fit.length))).map Prod.snd

/-- Number of individuals counted as "best": the top `best_share_p_`
fraction of the population, at least one. -/
def nBest (p : ℚ) (N : Nat) : Nat := max 1 (p * (N : ℚ)).floor.toNat

/-- Modelled from the spec: `GetXpBestCurrent` (body absent from the
sources) — a vector drawn from the top `best_share_p_` fraction of the
current population by rank. -/
def GetXpBestCurrent (cfg : Config) (ch : GenChoices) (st : PopState) (i : Nat) : Vec :=
  getV st.x (getN (sortIdx cfg.isMin st.fit) (ch.bestDraw i % nBest cfg.p cfg.N))

/-- Skip one forbidden index: maps `0..n-2` bijectively onto
`0..n-1 \ \x7ba\x7d`. -/
def skip1 (a k : Nat) : Nat := if a ≤ k then k + 1 else k

/-- Skip two distinct forbidden indices. -/
def skip2 (a b k : Nat) : Nat := skip1 (max a b) (skip1 (min a b) k)

/-- Modelled from the spec: `GetXRandomCurrent` (body absent from the
sources) — the index of a vector drawn uniformly from the current
population excluding index `i`. -/
def GetXRandomCurrent (cfg : Config) (ch : GenChoices) (i : Nat) : Nat :=
  skip1 i (ch.r1Draw i % (cfg.N - 1))

/-- Modelled from the spec: `GetXRandomArchiveAndCurrent` (body absent
from the sources) — a vector drawn uniformly from the union of archive
and current population, excluding individuals `i` and `r1`. -/
def GetXRandomArchiveAndCurrent (cfg : Config) (ch : GenChoices) (st : PopState) (i : Nat) : Vec :=
  let r1 := GetXRandomCurrent cfg ch i
  let pool := cfg.N - 2 + st.archive.length
  let k := ch.r2Draw i % pool
  if k < cfg.N - 2 then getV st.x (skip2 i r1 k)
  else getV st.archive (k - (cfg.N - 2))

/-- Modelled from the spec: `SubPopulation::Mutation` (body absent from
the sources) — mutant of individual `i`:
`xi + F·(xbest − xi) + F·(xr1 − xr2)`, every component clipped to its
bound pair. -/
def Mutation (cfg : Config) (ch : GenChoices) (st : PopState) (i : Nat) : Vec :=
  let xi := getV st.x i
  let xb := GetXpBestCurrent cfg ch st i
  let x1 := getV st.x (GetXRandomCurrent cfg ch i)
  let x2 := GetXRandomArchiveAndCurrent cfg ch st i
  (List.range cfg.D).map fun d =>
    clip (getQ cfg.lb d) (getQ cfg.ub d)
      (getQ xi d + FOf ch i * (getQ xb d - getQ xi d)
        + FOf ch i * (getQ x1 d - getQ x2 d))

/-- Modelled from the spec: `SubPopulation::Crossover` (body absent from
the sources) — binomial crossover: dimension `d` of the trial comes from
the mutant when the uniform draw `u d` is below `CR` or when `d` is the
forced dimension `jr % D` (chosen uniformly at random), otherwise from
the parent. -/
def Crossover (CR : ℚ) (u : Nat → ℚ) (jr : Nat) (mutV par : Vec) (D : Nat) : Vec :=
  (List.range D).map fun d =>
    if u d < CR ∨ d = jr % D then getQ mutV d else getQ par d

/-- Trial vector of individual `i`: crossover of its mutant with the
parent. -/
def trialOf (cfg : Config) (ch : GenChoices) (st : PopState) (i : Nat) : Vec :=
  Crossover (CROf ch i) (ch.unit i) (ch.jDraw i)
    (Mutation cfg ch st i) (getV st.x i) cfg.D

/-- Modelled from the spec: the acceptance decision of
`SubPopulation::Selection` (body absent from the sources) — the trial
replaces the parent exactly when its fitness is at least as good under
the configured direction (accept on tie). -/
def Selection (cfg : Config) (f : Vec → ℚ) (ch : GenChoices) (st : PopState) (i : Nat) : Bool :=
  better cfg.isMin (f (trialOf cfg ch st i)) (getQ st.fit i)

/-- Lehmer-type mean used by the mutation-factor adaptation:
`Σ v² / Σ v`. -/
def lehmerMean (l : List ℚ) : ℚ := (l.map fun v => v * v).sum / l.sum

/-- Arithmetic mean used by the crossover-rate adaptation. -/
def arithMean (l : List ℚ) : ℚ := l.sum / (l.length : ℚ)

/-- Modelled from the spec: the μF update of `SubPopulation::Adaption`
(body absent from the sources) — exponential smoothing with the Lehmer
mean of the success set; an empty success set leaves μF unchanged. -/
def adaptMuF (c muF : ℚ) (sF : List ℚ) : ℚ :=
  if sF.isEmpty then muF else (1 - c) * muF + c * lehmerMean sF

/-- Modelled from the spec: the μCR update of `SubPopulation::Adaption`
(body absent from the sources) — exponential smoothing with the mean of
the success set; an empty success set leaves μCR unchanged. -/
def adaptMuCR (c muCR : ℚ) (sCR : List ℚ) : ℚ :=
  if sCR.isEmpty then muCR else (1 - c) * muCR + c * arithMean sCR

/-- Modelled from the spec: `SubPopulation::Adaption` (body absent from
the sources) — update both adaptation scalars from this generation's
success sets. -/
def Adaption (c muF muCR : ℚ) (sF sCR : List ℚ) : ℚ × ℚ :=
  (adaptMuF c muF sF, adaptMuCR c muCR sCR)

/-- Remove `k` entries of the archive, each at an oracle-chosen
position. -/
def trimArchive (r : Nat → Nat) : Nat → List Vec → List Vec
  | 0, A => A
  | k + 1, A => trimArchive r k (A.eraseIdx (r k % A.length))

/-- Modelled from the spec: `SubPopulation::ArchiveCleanUp` (body absent
from the sources) — if the archive holds more than `N` entries, remove
entries at random until its size equals `N`. -/
def ArchiveCleanUp (r : Nat → Nat) (N : Nat) (A : List Vec) : List Vec :=
  trimArchive r (A.length - N) A

/-- Modelled from the spec: one generation of the run loop (bodies absent
from the sources) — for each individual: draw parameters, mutate,
crossover, evaluate the trial, select elitistically, accumulate success
sets and displaced parents; then adapt μF and μCR, clean up the archive
and advance the generation counter. -/
def genStep (cfg : Config) (f : Vec → ℚ) (ch : GenChoices) (st : PopState) : PopState :=
  let newX := (List.range cfg.N).map fun i =>
    if Selection cfg f ch st i then trialOf cfg ch st i else getV st.x i
  let newFit := (List.range cfg.N).map fun i =>
    if Selection cfg f ch st i then f (trialOf cfg ch st i) else getQ st.fit i
  let sF := (List.range cfg.N).filterMap fun i =>
    if Selection cfg f ch st i then some (FOf ch i) else none
  let sCR := (List.range cfg.N).filterMap fun i =>
    if Selection cfg f ch st i then some (CROf ch i) else none
  let displaced := (List.range cfg.N).filterMap fun i =>
    if Selection cfg f ch st i then some (getV st.x i) else none
  { x := newX
    fit := newFit
    archive := ArchiveCleanUp ch.archDraw cfg.N (st.archive ++ displaced)
    muF := (Adaption cfg.c st.muF st.muCR sF sCR).1
    muCR := (Adaption cfg.c st.muF st.muCR sF sCR).2
    gen := st.gen + 1
    errorStatus := st.errorStatus }

/-- Iterate `n` generations of the run loop, generation `g` consuming the
oracle's choices for `g`. -/
def iterRun (cfg : Config) (f : Vec → ℚ) (ch : Nat → GenChoices) : Nat → PopState → PopState
  | 0, st => st
  | n + 1, st => genStep cfg f (ch n) (iterRun cfg f ch n st)

/-- Modelled from the spec: `SubPopulation::CreateInitialPopulation`
(body absent from the sources) — each component drawn uniformly within
its bound pair, modelled as `lb + (ub − lb)·u` with `u` a unit draw. -/
def CreateInitialPopulation (cfg : Config) (u : Nat → Nat → ℚ) : List Vec :=
  (List.range cfg.N).map fun i => (List.range cfg.D).map fun d =>
    getQ cfg.lb d + (getQ cfg.ub d - getQ cfg.lb d) * u i d

/-- Engine state at the start of a run: freshly created population, empty
fitness cache and archive, adaptation scalars at their header defaults
`0.5`, generation counter at `0`, clean status. -/
def initialRunState (cfg : Config) (or : Oracle) : PopState :=
  { x := CreateInitialPopulation cfg or.initUnit
    fit := []
    archive := []
    muF := 1/2
    muCR := 1/2
    gen := 0
    errorStatus := 0 }

/-- Modelled from the spec: `SubPopulation::EvaluateCurrentVectors` (body
absent from the sources) — apply the registered fitness function to every
current vector; fail with `kError` when no function is registered. -/
def EvaluateCurrentVectors (fOpt : Option (Vec → ℚ)) (st : PopState) : PopState :=
  match fOpt with
  | none => { st with errorStatus := kError }
  | some f => { st with fit := st.x.map f }

/-- The `ErrorStatus()` accessor of `SubPopulation`. -/
def ErrorStatus (st : PopState) : Nat := st.errorStatus

/-- Modelled from the spec: `SubPopulation::RunOptimization` (body absent
from the sources), distribution level 0 — create and evaluate the initial
population, abort immediately on a nonzero status, otherwise run the
generation loop up to the configured budget. -/
def RunOptimization (cfg : Config) (fOpt : Option (Vec → ℚ)) (or : Oracle) : PopState :=
  let st1 := EvaluateCurrentVectors fOpt (initialRunState cfg or)
  if st1.errorStatus ≠ 0 then st1
  else
    match fOpt with
    | none => st1
    | some f => iterRun cfg f or.gen cfg.genMax st1

/-- Best fitness of a population under the configured direction. -/
def bestFitness (isMin : Bool) (fit : List ℚ) : ℚ :=
  fit.foldl (fun a b => if better isMin b a then b else a) (getQ fit 0)

/-- The sequence of best-fitness values, one entry per generation of the
run. -/
def bestTrace (cfg : Config) (fOpt : Option (Vec → ℚ)) (or : Oracle) : List ℚ :=
  match fOpt with
  | none => []
  | some f =>
    (List.range cfg.genMax).map fun n =>
      bestFitness cfg.isMin
        (iterRun cfg f or.gen (n + 1)
          (EvaluateCurrentVectors (some f) (initialRunState cfg or))).fit

/-- Modelled from the spec: the member `std::mt19937_64 generator_` —
a deterministic pure word stream of the seed (the precise engine is
irrelevant here; only that every draw is a pure function of the seed and
the draw position matters). -/
def word (seed : Nat) : Nat → Nat
  | 0 => seed % 2 ^ 64
  | n + 1 => (6364136223846793005 * word seed n + 1442695040888963407) % 2 ^ 64

/-- A unit-interval rational derived from one generator word. -/
def unitFromWord (w : Nat) : ℚ := ((w % 2 ^ 53 : Nat) : ℚ) / (2 ^ 53 : ℚ)

/-- Modelled from the spec: the random draw service backed by the seeded
generator — every stream of the oracle is a pure function of the seed
and the draw's position. -/
def oracleOfSeed (s : Nat) : Oracle :=
  { initUnit := fun i d => unitFromWord (word s (Nat.pair 0 (Nat.pair i d)))
    gen := fun g =>
      { Fdraw := fun i => unitFromWord (word s (Nat.pair 1 (Nat.pair g i)))
        CRdraw := fun i => unitFromWord (word s (Nat.pair 2 (Nat.pair g i)))
        unit := fun i d => unitFromWord (word s (Nat.pair 3 (Nat.pair g (Nat.pair i d))))
        bestDraw := fun i => word s (Nat.pair 4 (Nat.pair g i))
        r1Draw := fun i => word s (Nat.pair 5 (Nat.pair g i))
        r2Draw := fun i => word s (Nat.pair 6 (Nat.pair g i))
        jDraw := fun i => word s (Nat.pair 7 (Nat.pair g i))
        archDraw := fun k => word s (Nat.pair 8 (Nat.pair g k)) } }

/-- Modelled from the spec: `SubPopulation::Init` (body absent from the
sources) — validate `N ≥ 4` and `D ≥ 1`, fail with a nonzero status
otherwise; on success allocate the current and next-generation buffers
for this shard's share of the population. -/
structure InitOutcome where
  status : Nat
  current : List Vec
  next : List Vec
  subpop : Nat

/-- Size of the sub-population owned by shard `r` of `R` shards: the even
split `N / R`, with the remainder distributed to low-rank shards. -/
def shardSize (N R r : Nat) : Nat := N / R + if r < N % R then 1 else 0

/-- Modelled from the spec: `SubPopulation::Init` (body absent from the
sources). -/
def Init (N D : Int) (rank shards : Nat) : InitOutcome :=
  if 4 ≤ N ∧ 1 ≤ D then
    let n := shardSize N.toNat shards rank
    { status := kDone
      current := List.replicate n (List.replicate D.toNat 0)
      next := List.replicate n (List.replicate D.toNat 0)
      subpop := n }
  else { status := kError, current := [], next := [], subpop := 0 }

/-- Default-initialized `SubPopulation`, mirroring the in-class member
initializers of `jade.h`. -/
structure SubPopulation where
  isPMCRADE_ : Bool := true
  is_find_minimum_ : Bool := true
  total_generations_max_ : Int := 0
  total_population_ : Int := 0
  subpopulation_ : Int := 0
  dimension_ : Int := -1
  current_generation_ : Int := -1
  adaptor_mutation_mu_F_ : ℚ := 1/2
  adaptor_crossover_mu_CR_ : ℚ := 1/2
  best_share_p_ : ℚ := 1/20
  adaptation_frequency_c_ : ℚ := 1/10
  error_status_ : Int := 0
  distribution_level_ : Int := 0

/-- A freshly constructed `SubPopulation` with all defaults. -/
def defaultSubPopulation : SubPopulation := {}

/-- Every stored vector has the configured dimension and every component
lies within its bound pair. -/
def inBoundsV (cfg : Config) (v : Vec) : Prop :=
  v.length = cfg.D ∧
    ∀ d, d < cfg.D → getQ cfg.lb d ≤ getQ v d ∧ getQ v d ≤ getQ cfg.ub d

/-- The bounds invariant of the engine state: every vector of the current
population and of the archive is in bounds. -/
def inBoundsState (cfg : Config) (st : PopState) : Prop :=
  (∀ v ∈ st.x, inBoundsV cfg v) ∧ (∀ v ∈ st.archive, inBoundsV cfg v)

/-- The configured bounds are well-formed: lower ≤ upper per dimension. -/
def boundsOK (cfg : Config) : Prop :=
  ∀ d, d < cfg.D → getQ cfg.lb d ≤ getQ cfg.ub d

/-- Engine state reached after evaluating the fresh population and
running `n` generations. -/
def stateAfter (cfg : Config) (f : Vec → ℚ) (or : Oracle) (n : Nat) : PopState :=
  iterRun cfg f or.gen n (EvaluateCurrentVectors (some f) (initialRunState cfg or))

/-- A small concrete configuration used to evaluate the theorems on
closed inputs. -/
def cfgW : Config :=
  { N := 4, D := 1, lb := [0], ub := [1], genMax := 1, isMin := true
    p := 1/10, c := 1/10, distLevel := 0 }

/-- A concrete fitness function for closed evaluations. -/
def fW : Vec → ℚ := fun _ => 0

/-- Concrete per-generation draw results for closed evaluations. -/
def chW : GenChoices :=
  { Fdraw := fun _ => 1/2, CRdraw := fun _ => 1/2, unit := fun _ _ => 1/2
    bestDraw := fun _ => 0, r1Draw := fun _ => 0, r2Draw := fun _ => 0
    jDraw := fun _ => 0, archDraw := fun _ => 0 }

/-- A concrete oracle for closed evaluations. -/
def orW : Oracle := { initUnit := fun _ _ => 1/2, gen := fun _ => chW }

/-- A concrete engine state for closed evaluations. -/
def stW : PopState :=
  { x := [[0], [0], [0], [0]], fit := [0, 0, 0, 0], archive := []
    muF := 1/2, muCR := 1/2, gen := 0, errorStatus := 0 }

/- ================= theorems ================= -/

theorem getQ_map_range (g : Nat → ℚ) {n i : Nat} (h : i < n) :
    getQ ((List.range n).map g) i = g i := by
  simp [getQ, List.getElem?_map, List.getElem?_range, h]

theorem getV_map_range (g : Nat → Vec) {n i : Nat} (h : i < n) :
    getV ((List.range n).map g) i = g i := by
  simp [getV, List.getElem?_map, List.getElem?_range, h]

theorem getV_mem {l : List Vec} {i : Nat} (h : i < l.length) : getV l i ∈ l := by
  simp only [getV, List.getElem?_eq_getElem h, Option.getD_some]
  exact List.getElem_mem h

theorem better_iff (isMin : Bool) (a b : ℚ) :
    better isMin a b = true ↔ dirLE isMin a b := by
  cases isMin <;> simp [better, dirLE]

theorem dirLE_refl (isMin : Bool) (a : ℚ) : dirLE isMin a a := by
  cases isMin <;> simp [dirLE]

theorem genStep_fit_getQ (cfg : Config) (f : Vec → ℚ) (ch : GenChoices)
    (st : PopState) {i : Nat} (h : i < cfg.N) :
    getQ (genStep cfg f ch st).fit i =
      if Selection cfg f ch st i then f (trialOf cfg ch st i) else getQ st.fit i := by
  simp only [genStep]
  exact getQ_map_range _ h

theorem genStep_x_getV (cfg : Config) (f : Vec → ℚ) (ch : GenChoices)
    (st : PopState) {i : Nat} (h : i < cfg.N) :
    getV (genStep cfg f ch st).x i =
      if Selection cfg f ch st i then trialOf cfg ch st i else getV st.x i := by
  simp only [genStep]
  exact getV_map_range _ h

/-- C1: Elitism of selection — for every generation and every population
slot `i`, the fitness recorded for slot `i` in the next generation is at
least as good as slot `i`'s current fitness under the configured
direction; the trial replaces the parent exactly when its fitness is at
least as good (accept on tie), and otherwise the parent and its fitness
are carried over unchanged. -/
theorem selection_elitism (cfg : Config) (f : Vec → ℚ) (ch : Nat → GenChoices)
    (st0 : PopState) (n i : Nat) (hi : i < cfg.N) :
    dirLE cfg.isMin (getQ (iterRun cfg f ch (n + 1) st0).fit i)
      (getQ (iterRun cfg f ch n st0).fit i)
    ∧ (dirLE cfg.isMin (f (trialOf cfg (ch n) (iterRun cfg f ch n st0) i))
          (getQ (iterRun cfg f ch n st0).fit i) →
        getV (iterRun cfg f ch (n + 1) st0).x i
            = trialOf cfg (ch n) (iterRun cfg f ch n st0) i
        ∧ getQ (iterRun cfg f ch (n + 1) st0).fit i
            = f (trialOf cfg (ch n) (iterRun cfg f ch n st0) i))
    ∧ (¬ dirLE cfg.isMin (f (trialOf cfg (ch n) (iterRun cfg f ch n st0) i))
          (getQ (iterRun cfg f ch n st0).fit i) →
        getV (iterRun cfg f ch (n + 1) st0).x i = getV (iterRun cfg f ch n st0).x i
        ∧ getQ (iterRun cfg f ch (n + 1) st0).fit i
            = getQ (iterRun cfg f ch n st0).fit i) := by
  have hstep : iterRun cfg f ch (n + 1) st0
      = genStep cfg f (ch n) (iterRun cfg f ch n st0) := rfl
  set st := iterRun cfg f ch n st0 with hst
  rw [hstep]
  have hf := genStep_fit_getQ cfg f (ch n) st (i := i) hi
  have hx := genStep_x_getV cfg f (ch n) st (i := i) hi
  by_cases hacc : Selection cfg f (ch n) st i = true
  · have hd : dirLE cfg.isMin (f (trialOf cfg (ch n) st i)) (getQ st.fit i) :=
      (better_iff _ _ _).mp hacc
    rw [hf, hx, if_pos hacc, if_pos hacc]
    exact ⟨hd, fun _ => ⟨rfl, rfl⟩, fun h => absurd hd h⟩
  · have hd : ¬ dirLE cfg.isMin (f (trialOf cfg (ch n) st i)) (getQ st.fit i) :=
      fun h => hacc ((better_iff _ _ _).mpr h)
    rw [hf, hx, if_neg hacc, if_neg hacc]
    exact ⟨dirLE_refl _ _, fun h => absurd h hd, fun _ => ⟨rfl, rfl⟩⟩

theorem selection_elitism_witness :
    0 < cfgW.N
    ∧ dirLE cfgW.isMin (getQ (iterRun cfgW fW (fun _ => chW) 1 stW).fit 0)
        (getQ (iterRun cfgW fW (fun _ => chW) 0 stW).fit 0) :=
  ⟨by decide, (selection_elitism cfgW fW (fun _ => chW) stW 0 0 (by decide)).1⟩

theorem trimArchive_length (r : Nat → Nat) :
    ∀ (k : Nat) (A : List Vec), (trimArchive r k A).length = A.length - k := by
  intro k
  induction k with
  | zero => intro A; simp [trimArchive]
  | succ k ih =>
    intro A
    have hlen : (A.eraseIdx (r k % A.length)).length = A.length - 1 := by
      rcases Nat.eq_zero_or_pos A.length with h | h
      · have : A = [] := List.length_eq_zero.mp h
        subst this; simp
      · rw [List.length_eraseIdx, if_pos (Nat.mod_lt _ h)]
    simp only [trimArchive]
    rw [ih, hlen]
    omega

theorem trimArchive_subset (r : Nat → Nat) :
    ∀ (k : Nat) (A : List Vec) (v : Vec), v ∈ trimArchive r k A → v ∈ A := by
  intro k
  induction k with
  | zero => intro A v h; simpa [trimArchive] using h
  | succ k ih =>
    intro A v h
    simp only [trimArchive] at h
    exact List.Sublist.mem (ih _ v h) (List.eraseIdx_sublist A _)

theorem ArchiveCleanUp_length (r : Nat → Nat) (N : Nat) (A : List Vec) :
    (ArchiveCleanUp r N A).length = min A.length N := by
  simp only [ArchiveCleanUp]
  rw [trimArchive_length]
  omega

/-- C5: Archive bound — after every cleanup step the archive holds at
most `N` individuals; when the archive exceeded `N` (after appending the
newly displaced parents), entries were removed until its size equals `N`.
The last conjunct states the bound for the archive produced by a full
generation step, which appends the displaced parents before cleaning
up. -/
theorem archive_cleanup_bound (r : Nat → Nat) (N : Nat) (A : List Vec)
    (cfg : Config) (f : Vec → ℚ) (ch : GenChoices) (st : PopState) :
    (ArchiveCleanUp r N A).length ≤ N
    ∧ (N < A.length → (ArchiveCleanUp r N A).length = N)
    ∧ (genStep cfg f ch st).archive.length ≤ cfg.N := by
  have h := ArchiveCleanUp_length r N A
  refine ⟨by omega, fun hlt => by omega, ?_⟩
  have h2 := ArchiveCleanUp_length ch.archDraw cfg.N
    (st.archive ++ ((List.range cfg.N).filterMap fun i =>
      if Selection cfg f ch st i then some (getV st.x i) else none))
  simp only [genStep]
  omega

theorem archive_cleanup_bound_witness :
    2 < 3
    ∧ (ArchiveCleanUp (fun _ => 0) 2 [[(0 : ℚ)], [1], [2]]).length = 2 :=
  ⟨by decide,
    (archive_cleanup_bound (fun _ => 0) 2 [[(0 : ℚ)], [1], [2]]
      cfgW fW chW stW).2.1 (by decide)⟩

theorem iterRun_gen (cfg : Config) (f : Vec → ℚ) (ch : Nat → GenChoices) :
    ∀ (n : Nat) (st : PopState), (iterRun cfg f ch n st).gen = st.gen + n := by
  intro n
  induction n with
  | zero => intro st; simp [iterRun]
  | succ n ih =>
    intro st
    simp only [iterRun, genStep]
    rw [ih]
    push_cast
    ring

/-- C9: Generation counter — the run-state generation counter starts at
`0`, every generation step increases it by one (so it never decreases
across the run loop: after `n ≤ m` generations the counter is `n ≤ m`),
and the completed run is terminal at the configured maximum number of
generations. -/
theorem generation_counter (cfg : Config) (f : Vec → ℚ) (or : Oracle)
    (n m : Nat) (hnm : n ≤ m) (st : PopState) :
    (initialRunState cfg or).gen = 0
    ∧ (genStep cfg f (or.gen n) st).gen = st.gen + 1
    ∧ (stateAfter cfg f or n).gen = n
    ∧ (stateAfter cfg f or n).gen ≤ (stateAfter cfg f or m).gen
    ∧ (RunOptimization cfg (some f) or).gen = cfg.genMax := by
  have hbase : (EvaluateCurrentVectors (some f) (initialRunState cfg or)).gen = 0 := rfl
  have hn : (stateAfter cfg f or n).gen = (n : Int) := by
    simp only [stateAfter]
    rw [iterRun_gen, hbase]
    ring
  have hm : (stateAfter cfg f or m).gen = (m : Int) := by
    simp only [stateAfter]
    rw [iterRun_gen, hbase]
    ring
  have hrun : RunOptimization cfg (some f) or = stateAfter cfg f or cfg.genMax := by
    simp [RunOptimization, stateAfter, EvaluateCurrentVectors, initialRunState]
  refine ⟨rfl, by simp only [genStep], hn, ?_, ?_⟩
  · rw [hn, hm]
    exact_mod_cast hnm
  · rw [hrun]
    simp only [stateAfter]
    rw [iterRun_gen, hbase]
    ring

theorem generation_counter_witness :
    0 ≤ 1 ∧ (RunOptimization cfgW (some fW) orW).gen = cfgW.genMax :=
  ⟨by decide, (generation_counter cfgW fW orW 0 1 (by decide) stW).2.2.2.2⟩

/-- C8: Evaluation failure — with no fitness function registered,
`EvaluateCurrentVectors` fails with `kError` (nonzero), the run loop
aborts immediately (generation counter still `0`, population untouched),
and `ErrorStatus` returns the nonzero status afterwards. -/
theorem evaluation_failure (cfg : Config) (or : Oracle) (st : PopState) :
    (EvaluateCurrentVectors none st).errorStatus = kError
    ∧ kError ≠ 0
    ∧ ErrorStatus (RunOptimization cfg none or) = kError
    ∧ ErrorStatus (RunOptimization cfg none or) ≠ 0
    ∧ (RunOptimization cfg none or).gen = 0
    ∧ (RunOptimization cfg none or).x = (initialRunState cfg or).x := by
  refine ⟨rfl, by decide, ?_, ?_, ?_, ?_⟩ <;>
    simp [RunOptimization, EvaluateCurrentVectors, ErrorStatus, kError, initialRunState]

/-- C10: Default initial state — a freshly constructed `SubPopulation`
has μF = μCR = 0.5 (inside `(0,1]`), direction set to minimize, the
PMCRADE variant enabled, error status `0` and distribution level `0`,
exactly as the in-class member initializers of `jade.h` state. -/
theorem default_initial_state :
    defaultSubPopulation.adaptor_mutation_mu_F_ = 1/2
    ∧ defaultSubPopulation.adaptor_crossover_mu_CR_ = 1/2
    ∧ 0 < defaultSubPopulation.adaptor_mutation_mu_F_
    ∧ defaultSubPopulation.adaptor_mutation_mu_F_ ≤ 1
    ∧ 0 < defaultSubPopulation.adaptor_crossover_mu_CR_
    ∧ defaultSubPopulation.adaptor_crossover_mu_CR_ ≤ 1
    ∧ defaultSubPopulation.is_find_minimum_ = true
    ∧ defaultSubPopulation.isPMCRADE_ = true
    ∧ defaultSubPopulation.error_status_ = 0
    ∧ defaultSubPopulation.distribution_level_ = 0 := by
  refine ⟨rfl, rfl, by norm_num [defaultSubPopulation], by norm_num [defaultSubPopulation],
    by norm_num [defaultSubPopulation], by norm_num [defaultSubPopulation], rfl, rfl, rfl, rfl⟩

/-- C3 counterexample: with parent `[3]`, mutant `[3]`, `CR = 0` and
`D = 1`, the forced dimension is taken from the mutant and yet the trial
equals its parent — so the trial does not differ from the parent in any
dimension, refuting the claim as stated (which quantifies over every
mutant vector). -/
theorem crossover_guarantee_cex :
    Crossover 0 (fun _ => 1) 0 [(3 : ℚ)] [(3 : ℚ)] 1 = [(3 : ℚ)]
    ∧ (0 : ℚ) ≤ 0 ∧ (0 : ℚ) ≤ 1 := by
  refine ⟨?_, by norm_num, by norm_num⟩
  decide

/-- C3 amended: for every parent, mutant and crossover rate (including
`CR = 0`), the trial produced by `Crossover` takes its forced dimension
`jrand` (chosen uniformly at random) from the mutant; hence the trial
differs from the parent in at least one dimension whenever the mutant
differs from the parent in the forced dimension. -/
theorem crossover_forced_dimension (CR : ℚ) (u : Nat → ℚ) (jr : Nat)
    (mutV par : Vec) (D : Nat) (hD : 0 < D) :
    getQ (Crossover CR u jr mutV par D) (jr % D) = getQ mutV (jr % D)
    ∧ (getQ mutV (jr % D) ≠ getQ par (jr % D) →
        Crossover CR u jr mutV par D ≠ par) := by
  have hj : jr % D < D := Nat.mod_lt _ hD
  have h1 : getQ (Crossover CR u jr mutV par D) (jr % D) = getQ mutV (jr % D) := by
    simp only [Crossover]
    rw [getQ_map_range _ hj]
    exact if_pos (Or.inr rfl)
  refine ⟨h1, fun hne hEq => hne ?_⟩
  calc getQ mutV (jr % D) = getQ (Crossover CR u jr mutV par D) (jr % D) := h1.symm
    _ = getQ par (jr % D) := by rw [hEq]

theorem crossover_forced_dimension_witness :
    0 < 1 ∧ Crossover 0 (fun _ => 1) 0 [(1 : ℚ)] [(0 : ℚ)] 1 ≠ [(0 : ℚ)] :=
  ⟨by decide,
    (crossover_forced_dimension 0 (fun _ => 1) 0 [(1 : ℚ)] [(0 : ℚ)] 1
      (by decide)).2 (by decide)⟩

theorem sum_sq_le_sum {l : List ℚ} (h : ∀ v ∈ l, 0 < v ∧ v ≤ 1) :
    (l.map fun v => v * v).sum ≤ l.sum := by
  induction l with
  | nil => simp
  | cons a t ih =>
    simp only [List.map_cons, List.sum_cons]
    have ha := h a (List.mem_cons_self a t)
    have hsq : a * a ≤ a := by nlinarith [ha.1, ha.2]
    have ht := ih fun v hv => h v (List.mem_cons_of_mem a hv)
    linarith

theorem sum_le_length {l : List ℚ} (h : ∀ v ∈ l, v ≤ 1) :
    l.sum ≤ (l.length : ℚ) := by
  induction l with
  | nil => simp
  | cons a t ih =>
    simp only [List.sum_cons, List.length_cons]
    push_cast
    have ha := h a (List.mem_cons_self a t)
    have ht := ih fun v hv => h v (List.mem_cons_of_mem a hv)
    linarith

theorem lehmerMean_bounds {l : List ℚ} (hne : l ≠ [])
    (h : ∀ v ∈ l, 0 < v ∧ v ≤ 1) : 0 < lehmerMean l ∧ lehmerMean l ≤ 1 := by
  have hs : 0 < l.sum := List.sum_pos l (fun x hx => (h x hx).1) hne
  have hsq : 0 < (l.map fun v => v * v).sum := by
    apply List.sum_pos
    · intro x hx
      rcases List.mem_map.mp hx with ⟨v, hv, rfl⟩
      have := (h v hv).1
      positivity
    · simpa using hne
  have hle := sum_sq_le_sum h
  simp only [lehmerMean]
  exact ⟨div_pos hsq hs, by rw [div_le_one hs]; exact hle⟩

theorem arithMean_bounds {l : List ℚ} (hne : l ≠ [])
    (h : ∀ v ∈ l, 0 ≤ v ∧ v ≤ 1) : 0 ≤ arithMean l ∧ arithMean l ≤ 1 := by
  have hlpos : 0 < (l.length : ℚ) := by
    have : 0 < l.length := List.length_pos.mpr hne
    exact_mod_cast this
  have hs0 : 0 ≤ l.sum := List.sum_nonneg fun x hx => (h x hx).1
  have hsl : l.sum ≤ (l.length : ℚ) := sum_le_length fun v hv => (h v hv).2
  simp only [arithMean]
  exact ⟨div_nonneg hs0 hlpos.le, by rw [div_le_one hlpos]; exact hsl⟩

/-- C4: Adaptation-state invariant — after every adaptation step, for any
success-set contents whose entries satisfy the draw invariants
(`F ∈ (0,1]`, `CR ∈ [0,1]`), both μF and μCR stay in `(0,1]` (given a
smoothing rate `0 ≤ c < 1` and previous values in `(0,1]`), and an empty
success set leaves the corresponding μ unchanged. -/
theorem adaption_mu_invariant (c muF muCR : ℚ) (sF sCR : List ℚ)
    (hc0 : 0 ≤ c) (hc1 : c < 1)
    (hmuF : 0 < muF ∧ muF ≤ 1) (hmuCR : 0 < muCR ∧ muCR ≤ 1)
    (hsF : ∀ v ∈ sF, 0 < v ∧ v ≤ 1) (hsCR : ∀ v ∈ sCR, 0 ≤ v ∧ v ≤ 1) :
    (0 < (Adaption c muF muCR sF sCR).1 ∧ (Adaption c muF muCR sF sCR).1 ≤ 1)
    ∧ (0 < (Adaption c muF muCR sF sCR).2 ∧ (Adaption c muF muCR sF sCR).2 ≤ 1)
    ∧ (Adaption c muF muCR [] sCR).1 = muF
    ∧ (Adaption c muF muCR sF []).2 = muCR := by
  simp only [Adaption, adaptMuF, adaptMuCR]
  refine ⟨?_, ?_, by simp, by simp⟩
  · by_cases hne : sF.isEmpty = true
    · rw [if_pos hne]; exact hmuF
    · rw [if_neg hne]
      have hne' : sF ≠ [] := fun h => hne (by simp [h])
      obtain ⟨hL0, hL1⟩ := lehmerMean_bounds hne' hsF
      constructor
      · have h1 : 0 < (1 - c) * muF := mul_pos (by linarith) hmuF.1
        have h2 : 0 ≤ c * lehmerMean sF := mul_nonneg hc0 hL0.le
        linarith
      · have h1 : (1 - c) * muF ≤ 1 - c := by nlinarith [hmuF.2]
        have h2 : c * lehmerMean sF ≤ c := by nlinarith
        linarith
  · by_cases hne : sCR.isEmpty = true
    · rw [if_pos hne]; exact hmuCR
    · rw [if_neg hne]
      have hne' : sCR ≠ [] := fun h => hne (by simp [h])
      obtain ⟨hA0, hA1⟩ := arithMean_bounds hne' hsCR
      constructor
      · have h1 : 0 < (1 - c) * muCR := mul_pos (by linarith) hmuCR.1
        have h2 : 0 ≤ c * arithMean sCR := mul_nonneg hc0 hA0
        linarith
      · have h1 : (1 - c) * muCR ≤ 1 - c := by nlinarith [hmuCR.2]
        have h2 : c * arithMean sCR ≤ c := by nlinarith
        linarith

theorem adaption_mu_invariant_witness :
    ((0 : ℚ) ≤ 1/10 ∧ (1 : ℚ)/10 < 1)
    ∧ ((0 < (Adaption (1/10) (1/2) (1/2) [1/2] [0]).1
          ∧ (Adaption (1/10) (1/2) (1/2) [1/2] [0]).1 ≤ 1)
        ∧ (0 < (Adaption (1/10) (1/2) (1/2) [1/2] [0]).2
          ∧ (Adaption (1/10) (1/2) (1/2) [1/2] [0]).2 ≤ 1)
        ∧ (Adaption (1/10) (1/2) (1/2) [] [0]).1 = 1/2
        ∧ (Adaption (1/10) (1/2) (1/2) [1/2] []).2 = 1/2) :=
  ⟨⟨by norm_num, by norm_num⟩,
    adaption_mu_invariant (1/10) (1/2) (1/2) [1/2] [0]
      (by norm_num) (by norm_num) (by norm_num) (by norm_num)
      (by intro v hv; simp at hv; subst hv; norm_num)
      (by intro v hv; simp at hv; subst hv; norm_num)⟩

theorem sum_range_if (m q : Nat) : ∀ R : Nat,
    ((List.range R).map fun r => q + if r < m then 1 else 0).sum
      = R * q + min m R := by
  intro R
  induction R with
  | zero => simp
  | succ R ih =>
    rw [List.range_succ, List.map_append, List.sum_append]
    simp only [List.map_cons, List.map_nil, List.sum_cons, List.sum_nil]
    rw [ih, Nat.succ_mul]
    by_cases h : R < m
    · rw [if_pos h]; omega
    · rw [if_neg h]; omega

theorem sum_shardSize (N R : Nat) (hR : 0 < R) :
    ((List.range R).map (shardSize N R)).sum = N := by
  have h := sum_range_if (N % R) (N / R) R
  have hmod : N % R < R := Nat.mod_lt _ hR
  have hdm := Nat.div_add_mod N R
  have hfun : shardSize N R = fun r => N / R + if r < N % R then 1 else 0 := by
    funext r
    rfl
  rw [hfun, h, Nat.min_eq_left hmod.le]
  omega

/-- C7: Init validation — `Init(N, D)` succeeds exactly when `N ≥ 4` and
`D ≥ 1`, and fails with the nonzero error status otherwise; on success
the current and next-generation buffers are allocated with this shard's
share of the population and vectors of dimension `D`; the shard sizes
partition `N` evenly, with the remainder going to low-rank shards (sizes
are non-increasing in the rank and differ by at most one). -/
theorem init_validation (N D : Int) (rank shards : Nat) (hsh : 0 < shards) :
    ((Init N D rank shards).status = kDone ↔ (4 ≤ N ∧ 1 ≤ D))
    ∧ ((N < 4 ∨ D < 1) → (Init N D rank shards).status = kError
        ∧ (Init N D rank shards).status ≠ 0)
    ∧ (4 ≤ N → 1 ≤ D →
        (Init N D rank shards).current.length = shardSize N.toNat shards rank
        ∧ (Init N D rank shards).next.length = shardSize N.toNat shards rank
        ∧ ∀ v ∈ (Init N D rank shards).current, v.length = D.toNat)
    ∧ ((List.range shards).map (shardSize N.toNat shards)).sum = N.toNat
    ∧ (∀ r s : Nat, r ≤ s →
        shardSize N.toNat shards s ≤ shardSize N.toNat shards r
        ∧ shardSize N.toNat shards r ≤ shardSize N.toNat shards s + 1) := by
  refine ⟨?_, ?_, ?_, sum_shardSize _ _ hsh, ?_⟩
  · by_cases h : 4 ≤ N ∧ 1 ≤ D
    · simp [Init, if_pos h, kDone, h]
    · simp [Init, if_neg h, kDone, kError, h]
  · intro hor
    have h : ¬(4 ≤ N ∧ 1 ≤ D) := by omega
    simp [Init, if_neg h, kError]
  · intro h4 h1
    have h : 4 ≤ N ∧ 1 ≤ D := ⟨h4, h1⟩
    refine ⟨by simp [Init, if_pos h], by simp [Init, if_pos h], ?_⟩
    intro v hv
    simp only [Init, if_pos h] at hv
    rcases List.eq_of_mem_replicate hv with rfl
    simp
  · intro r s hrs
    simp only [shardSize]
    by_cases h1 : r < N.toNat % shards <;> by_cases h2 : s < N.toNat % shards <;>
      simp only [if_pos, if_neg, h1, h2, if_true, if_false] <;> omega

theorem init_validation_witness :
    0 < 2 ∧ ((List.range 2).map (shardSize (Int.toNat 5) 2)).sum = Int.toNat 5 :=
  ⟨by decide, (init_validation 5 2 0 2 (by decide)).2.2.2.1⟩

theorem clip_bounds {lb ub : ℚ} (v : ℚ) (h : lb ≤ ub) :
    lb ≤ clip lb ub v ∧ clip lb ub v ≤ ub := by
  simp only [clip]
  exact ⟨le_max_left _ _, max_le h (min_le_left _ _)⟩

theorem Mutation_inBounds (cfg : Config) (ch : GenChoices) (st : PopState)
    (i : Nat) (hb : boundsOK cfg) : inBoundsV cfg (Mutation cfg ch st i) := by
  constructor
  · simp [Mutation]
  · intro d hd
    simp only [Mutation]
    rw [getQ_map_range _ hd]
    exact clip_bounds _ (hb d hd)

theorem trialOf_inBounds (cfg : Config) (ch : GenChoices) (st : PopState)
    (i : Nat) (hb : boundsOK cfg) (hi : i < st.x.length)
    (hx : ∀ v ∈ st.x, inBoundsV cfg v) : inBoundsV cfg (trialOf cfg ch st i) := by
  have hpar : inBoundsV cfg (getV st.x i) := hx _ (getV_mem hi)
  have hmut : inBoundsV cfg (Mutation cfg ch st i) := Mutation_inBounds cfg ch st i hb
  constructor
  · simp [trialOf, Crossover]
  · intro d hd
    simp only [trialOf, Crossover]
    rw [getQ_map_range _ hd]
    by_cases hc : ch.unit i d < CROf ch i ∨ d = ch.jDraw i % cfg.D
    · rw [if_pos hc]
      exact hmut.2 d hd
    · rw [if_neg hc]
      exact hpar.2 d hd

theorem genStep_preserves (cfg : Config) (f : Vec → ℚ) (ch : GenChoices)
    (st : PopState) (hb : boundsOK cfg) (hlen : st.x.length = cfg.N)
    (hinv : inBoundsState cfg st) :
    (genStep cfg f ch st).x.length = cfg.N
    ∧ inBoundsState cfg (genStep cfg f ch st) := by
  refine ⟨by simp [genStep], ?_, ?_⟩
  · intro v hv
    simp only [genStep] at hv
    rcases List.mem_map.mp hv with ⟨i, hicond, rfl⟩
    have hi : i < cfg.N := List.mem_range.mp hicond
    by_cases hacc : Selection cfg f ch st i = true
    · rw [if_pos hacc]
      exact trialOf_inBounds cfg ch st i hb (by omega) hinv.1
    · rw [if_neg hacc]
      exact hinv.1 _ (getV_mem (show i < st.x.length by omega))
  · intro v hv
    simp only [genStep, ArchiveCleanUp] at hv
    have hv2 := trimArchive_subset ch.archDraw _ _ v hv
    rcases List.mem_append.mp hv2 with h | h
    · exact hinv.2 v h
    · rcases List.mem_filterMap.mp h with ⟨i, hir, hsome⟩
      have hi : i < cfg.N := List.mem_range.mp hir
      by_cases hacc : Selection cfg f ch st i = true
      · rw [if_pos hacc] at hsome
        obtain rfl : getV st.x i = v := Option.some_inj.mp hsome
        exact hinv.1 _ (getV_mem (show i < st.x.length by omega))
      · rw [if_neg hacc] at hsome
        exact absurd hsome (by simp)

theorem initial_inBounds (cfg : Config) (f : Vec → ℚ) (or : Oracle)
    (hb : boundsOK cfg)
    (hu : ∀ i d, 0 ≤ or.initUnit i d ∧ or.initUnit i d ≤ 1) :
    (EvaluateCurrentVectors (some f) (initialRunState cfg or)).x.length = cfg.N
    ∧ inBoundsState cfg (EvaluateCurrentVectors (some f) (initialRunState cfg or)) := by
  have hx : (EvaluateCurrentVectors (some f) (initialRunState cfg or)).x
      = CreateInitialPopulation cfg or.initUnit := rfl
  refine ⟨by rw [hx]; simp [CreateInitialPopulation], ?_, ?_⟩
  · intro v hv
    rw [hx] at hv
    simp only [CreateInitialPopulation] at hv
    rcases List.mem_map.mp hv with ⟨i, _, rfl⟩
    constructor
    · simp
    · intro d hd
      rw [getQ_map_range _ hd]
      have hu' := hu i d
      have hbd := hb d hd
      have h0 : 0 ≤ (getQ cfg.ub d - getQ cfg.lb d) * or.initUnit i d :=
        mul_nonneg (by linarith) hu'.1
      have h1 : (getQ cfg.ub d - getQ cfg.lb d) * or.initUnit i d
          ≤ getQ cfg.ub d - getQ cfg.lb d := by
        nlinarith [hu'.1, hu'.2]
      constructor <;> linarith
  · intro v hv
    simp [EvaluateCurrentVectors, initialRunState] at hv

/-- C2: Bounds invariant — for all generations, every stored vector
(current population and archive) has all components within the configured
per-dimension bound pairs, and the vectors produced by mutation and
crossover likewise stay in bounds because out-of-bounds mutant components
are clipped rather than rejected.  Requires well-formed bounds
(lower ≤ upper) and unit draws in `[0,1]` for the initial population. -/
theorem bounds_invariant (cfg : Config) (f : Vec → ℚ) (or : Oracle)
    (hb : boundsOK cfg)
    (hu : ∀ i d, 0 ≤ or.initUnit i d ∧ or.initUnit i d ≤ 1) (n : Nat) :
    inBoundsState cfg (stateAfter cfg f or n)
    ∧ (∀ i, i < cfg.N →
        inBoundsV cfg (Mutation cfg (or.gen n) (stateAfter cfg f or n) i)
        ∧ inBoundsV cfg (trialOf cfg (or.gen n) (stateAfter cfg f or n) i)) := by
  have key : ∀ k, (stateAfter cfg f or k).x.length = cfg.N
      ∧ inBoundsState cfg (stateAfter cfg f or k) := by
    intro k
    induction k with
    | zero => exact initial_inBounds cfg f or hb hu
    | succ k ih =>
      have hstep : stateAfter cfg f or (k + 1)
          = genStep cfg f (or.gen k) (stateAfter cfg f or k) := rfl
      rw [hstep]
      exact genStep_preserves cfg f (or.gen k) _ hb ih.1 ih.2
  refine ⟨(key n).2, fun i hi => ⟨Mutation_inBounds cfg (or.gen n) _ i hb, ?_⟩⟩
  refine trialOf_inBounds cfg (or.gen n) _ i hb ?_ (key n).2.1
  have := (key n).1
  omega

theorem bounds_invariant_witness :
    boundsOK cfgW ∧ inBoundsState cfgW (stateAfter cfgW fW orW 1) := by
  have hb : boundsOK cfgW := by
    intro d hd
    simp only [cfgW] at hd
    have hd0 : d = 0 := by omega
    subst hd0
    decide
  exact ⟨hb,
    (bounds_invariant cfgW fW orW hb
      (by intro i d; constructor <;> norm_num [orW]) 1).1⟩

/-- C6: Determinism — with a fixed random seed and distribution level 0
(no cross-shard synchronization is modelled at level 0), two runs of
`RunOptimization` with identical configuration and fitness function
produce an identical sequence of best-fitness values per generation (and
identical final states): every operation of the embedded engine is a pure
function of the configuration and the seed-derived oracle. -/
theorem run_deterministic (cfg1 cfg2 : Config) (fOpt1 fOpt2 : Option (Vec → ℚ))
    (s1 s2 : Nat) (hcfg : cfg1 = cfg2) (hf : fOpt1 = fOpt2) (hs : s1 = s2)
    (_hlvl : cfg1.distLevel = 0) :
    bestTrace cfg1 fOpt1 (oracleOfSeed s1) = bestTrace cfg2 fOpt2 (oracleOfSeed s2)
    ∧ RunOptimization cfg1 fOpt1 (oracleOfSeed s1)
        = RunOptimization cfg2 fOpt2 (oracleOfSeed s2) := by
  subst hcfg
  subst hf
  subst hs
  exact ⟨rfl, rfl⟩

theorem run_deterministic_witness :
    cfgW.distLevel = 0
    ∧ bestTrace cfgW (some fW) (oracleOfSeed 42)
        = bestTrace cfgW (some fW) (oracleOfSeed 42) :=
  ⟨by decide,
    (run_deterministic cfgW cfgW (some fW) (some fW) 42 42 rfl rfl rfl
      (by decide)).1⟩

end jade
